import Mathlib

/-
Shallow embedding of the pdf-struct TSV tool core
(src/annotations/types.ts, src/annotations/utils.ts, src/annotations/actions.ts).

JS arrays of records become List Line and in-place field mutation becomes
List.set. A JS runtime TypeError caused by reading a property of undefined
(an out-of-bounds array access) is modelled by returning none.
-/

/-- The transition label enumeration from types.ts. The constructor names are
the serialized one-character values; the descriptive enum names are the
abbreviations below. -/
inductive Transition
  | c | a | b | s | d | e | x
  deriving DecidableEq, Repr, Inhabited

namespace Transition

abbrev CONTINUOUS : Transition := c

abbrev ADDRESS : Transition := a

abbrev BLOCK : Transition := b

abbrev SAME_LEVEL : Transition := s

abbrev INDENTED_BLOCK : Transition := d

abbrev DELETE : Transition := e

abbrev IGNORE : Transition := x

end Transition

namespace Pointer

abbrev ROOT : Int := -1

abbrev UNSET : Int := 0

end Pointer

/-- A line record from types.ts: text payload, continuation pointer
(ROOT = -1, UNSET = 0, positive = 1-indexed reference to an earlier line),
transition label, and derived indent depth. -/
structure Line where
  text : String
  pointer : Int
  label : Transition
  indent : Int
  deriving DecidableEq, Repr, Inhabited

/-- Loop of calculateIndentFromPointers (utils.ts lines 71-94). The fuel
argument counts the remaining loop iterations; the caller passes the list
length, an upper bound, and the length never changes during the loop.
Reading lines[prevLine.pointer - 1] out of bounds is a JS TypeError the
moment .indent is read, modelled as none. -/
def calcIndentGo (fuel : Nat) (lines : List Line) (indent : Int) (i : Nat) :
    Option (List Line) :=
  match fuel with
  | 0 => some lines
  | fuel + 1 =>
    if i < lines.length then
      let line := lines.getD i default
      let prevLine := lines.getD (i - 1) default
      if prevLine.label = Transition.d then
        calcIndentGo fuel (lines.set i { line with indent := indent + 1 })
          (indent + 1) (i + 1)
      else if 0 < prevLine.pointer then
        match lines[(prevLine.pointer - 1).toNat]? with
        | none => none
        | some target =>
          calcIndentGo fuel (lines.set i { line with indent := target.indent + 1 })
            (target.indent + 1) (i + 1)
      else if prevLine.pointer = -1 then
        calcIndentGo fuel (lines.set i { line with indent := 0 }) 0 (i + 1)
      else
        calcIndentGo fuel (lines.set i { line with indent := indent }) indent (i + 1)
    else some lines

/-- calculateIndentFromPointers (utils.ts lines 71-94): left-to-right pass
seeded with running indent 0, starting at line index 1. -/
def calculateIndentFromPointers (lines : List Line) : Option (List Line) :=
  calcIndentGo lines.length lines 0 1

/-- Loop of updatePointersFromIndent (utils.ts lines 103-152) as structural
recursion over the list: at each step, line is lines[i-1] (the line argument)
and nextLine is lines[i] (the head of rest). The JS stack of 1-indexed parent
references keeps its top at the head of the pointers list, so push is cons,
pop is drop, and the last element of the JS array is the head here. -/
def updatePointersGo (pointers : List Nat) (i : Nat) (line : Line)
    (rest : List Line) : List Line :=
  match rest with
  | [] => [line]
  | nextLine :: rest =>
    if line.indent = nextLine.indent then
      { line with
          pointer := 0
          label := if line.label = Transition.d then Transition.s else line.label } ::
        updatePointersGo pointers (i + 1) nextLine rest
    else if line.indent < nextLine.indent then
      { line with pointer := 0, label := Transition.d } ::
        updatePointersGo (i :: pointers) (i + 1) nextLine rest
    else
      let pointers := pointers.drop (line.indent - nextLine.indent).toNat
      { line with pointer := (match pointers with | [] => -1 | p :: _ => (p : Int)) } ::
        updatePointersGo pointers (i + 1) nextLine rest

/-- updatePointersFromIndent (utils.ts lines 103-152): pass over adjacent pairs
starting with an empty stack at i = 1. -/
def updatePointersFromIndent (lines : List Line) : List Line :=
  match lines with
  | [] => []
  | line :: rest => updatePointersGo [] 1 line rest

/-- JS array read lines[i] for an integer index: the element is undefined
outside [0, length), and reading a field of undefined throws, modelled as
none. -/
def jsGetLine (lines : List Line) (i : Int) : Option Line :=
  if i < 0 then none else lines[i.toNat]?

/-- Loop of decrementChildIndent (actions.ts lines 15-21): starting at
target + 1, decrement each indent while it exceeds the target line's indent
(the target indent is re-read each iteration in JS but never changes, since
the loop only writes at indices above target). -/
def decChildGo (fuel : Nat) (lines : List Line) (targetIndent : Int) (i : Nat) :
    List Line :=
  match fuel with
  | 0 => lines
  | fuel + 1 =>
    if i < lines.length then
      let li := lines.getD i default
      if targetIndent < li.indent then
        decChildGo fuel (lines.set i { li with indent := li.indent - 1 })
          targetIndent (i + 1)
      else lines
    else lines

/-- decrementChildIndent (actions.ts lines 12-24): only acts when the target
line is labelled INDENTED_BLOCK; demotes the contiguous run of deeper lines
after the target, then re-encodes. -/
def decrementChildIndent (lines : List Line) (target : Nat) : Option (List Line) :=
  match jsGetLine lines (target : Int) with
  | none => none
  | some tgt =>
    if tgt.label ≠ Transition.INDENTED_BLOCK then some lines
    else some (updatePointersFromIndent
      (decChildGo lines.length lines tgt.indent (target + 1)))

/-- incrementIndent, first revision (actions.ts lines 33-42). Both boolean
constants are computed before the guard, so lines[target - 1].indent is read
even when target is 0; index -1 yields undefined and reading .indent throws. -/
def incrementIndent (lines : List Line) (target : Nat) : Option (List Line) :=
  let isFirstLine : Bool := target == 0
  match jsGetLine lines ((target : Int) - 1) with
  | none => none
  | some prev =>
    match jsGetLine lines (target : Int) with
    | none => none
    | some cur =>
      let isPreviousLineSameOrEqualIndent : Bool := prev.indent ≤ cur.indent
      if isFirstLine || isPreviousLineSameOrEqualIndent then some lines
      else some (updatePointersFromIndent (lines.set target
        { cur with
            indent := cur.indent + 1
            label := Transition.SAME_LEVEL }))

/-- decrementIndent, first revision (actions.ts lines 51-62). The constant
named isFirstLine actually tests target against the last index, and the Int
comparison mirrors the JS lines.length - 1. -/
def decrementIndent (lines : List Line) (target : Nat) : Option (List Line) :=
  let isFirstLine : Bool := (target : Int) == (lines.length : Int) - 1
  match jsGetLine lines (target : Int) with
  | none => none
  | some cur =>
    let isLineAtRootIndent : Bool := cur.indent == 0
    if isFirstLine || isLineAtRootIndent then some lines
    else
      match decrementChildIndent lines target with
      | none => none
      | some lines1 =>
        match jsGetLine lines1 (target : Int) with
        | none => none
        | some cur1 =>
          some (updatePointersFromIndent (lines1.set target
            { cur1 with
                indent := cur1.indent - 1
                label := Transition.SAME_LEVEL }))

/-- backspace, first revision (actions.ts lines 113-126). Both boolean
constants are computed before the guard, so lines[target + 1].indent is read
even when target is the last index, which throws in JS. -/
def backspace (lines : List Line) (target : Nat) : Option (List Line) :=
  match decrementChildIndent lines target with
  | none => none
  | some lines1 =>
    match jsGetLine lines1 (target : Int) with
    | none => none
    | some tgt =>
      let lines2 := lines1.set target { tgt with label := Transition.CONTINUOUS }
      let isTargetWithinLineBounds : Bool := target + 1 < lines2.length
      match jsGetLine lines2 ((target : Int) + 1) with
      | none => none
      | some next =>
        let isSameIndentAsNextLine : Bool := next.indent == tgt.indent
        if isTargetWithinLineBounds && !isSameIndentAsNextLine then
          some (updatePointersFromIndent
            (lines2.set (target + 1) { next with indent := tgt.indent }))
        else some lines2

/-- A record as built by parseTsvToLines (utils.ts lines 9-33) before any
validation: the raw destructured fields of a tab-split line. A missing field
is JS undefined, modelled as none; a pointer field that does not parse as an
integer is NaN, also modelled as none. The label is the raw token, cast
unchecked in the source. -/
structure ParsedLine where
  text : Option String
  pointer : Option Int
  label : Option String
  indent : Int
  deriving DecidableEq, Repr, Inhabited

/-- JS String.prototype.split with a one-character separator, on the
character list: splitting the empty string gives one empty field, and each
separator occurrence starts a new field. -/
def jsSplitGo (sep : Char) : List Char → List (List Char)
  | [] => [[]]
  | ch :: rest =>
    match jsSplitGo sep rest with
    | [] => [[]]
    | cur :: parts =>
      if ch = sep then [] :: cur :: parts else (ch :: cur) :: parts

/-- JS String.prototype.split with a one-character separator. -/
def jsSplit (s : String) (sep : Char) : List String :=
  (jsSplitGo sep s.toList).map List.asString

/-- JS String.prototype.trimEnd: remove trailing whitespace. -/
def jsTrimEnd (s : String) : String :=
  ((s.toList.reverse.dropWhile Char.isWhitespace).reverse).asString

/-- JS parseInt applied to the raw pointer field: leading whitespace is
skipped, an optional sign is read, then a maximal run of decimal digits; no
digits gives NaN (none). parseInt of undefined is NaN. -/
def jsParseInt (s : Option String) : Option Int :=
  match s with
  | none => none
  | some str =>
    let cs := str.toList.dropWhile Char.isWhitespace
    let sign : Int := if cs.head? = some '-' then -1 else 1
    let cs := if cs.head? = some '-' || cs.head? = some '+' then cs.tail else cs
    let digits := cs.takeWhile Char.isDigit
    if digits.isEmpty then none
    else some (sign * (digits.foldl (fun n ch => n * 10 + (ch.toNat - 48)) 0 : Nat))

/-- One record of parseTsvToLines: the line is split on tabs and the three
fields are destructured with no validation; indent starts at 0. -/
def mkRecord (line : String) : ParsedLine :=
  let fields := jsSplit line '\t'
  { text := fields[0]?
    pointer := jsParseInt fields[1]?
    label := fields[2]?
    indent := 0 }

/-- The line filtering of parseTsvToLines: split the file on newlines, trim
trailing whitespace from each line, drop empty lines. -/
def keptRawLines (contents : String) : List String :=
  ((jsSplit contents '\n').map jsTrimEnd).filter (fun l => l != "")

/-- The decoder loop of calculateIndentFromPointers as it runs on freshly
parsed records, whose pointer may be NaN (none): NaN compares false both
against 0 and against -1, so a NaN pointer always takes the final
indent-unchanged branch. Otherwise identical to calcIndentGo. -/
def calcPIndentGo (fuel : Nat) (lines : List ParsedLine) (indent : Int) (i : Nat) :
    Option (List ParsedLine) :=
  match fuel with
  | 0 => some lines
  | fuel + 1 =>
    if i < lines.length then
      let line := lines.getD i default
      let prevLine := lines.getD (i - 1) default
      if prevLine.label = some "d" then
        calcPIndentGo fuel (lines.set i { line with indent := indent + 1 })
          (indent + 1) (i + 1)
      else
        match prevLine.pointer with
        | some p =>
          if 0 < p then
            match lines[(p - 1).toNat]? with
            | none => none
            | some target =>
              calcPIndentGo fuel (lines.set i { line with indent := target.indent + 1 })
                (target.indent + 1) (i + 1)
          else if p = -1 then
            calcPIndentGo fuel (lines.set i { line with indent := 0 }) 0 (i + 1)
          else
            calcPIndentGo fuel (lines.set i { line with indent := indent }) indent (i + 1)
        | none =>
          calcPIndentGo fuel (lines.set i { line with indent := indent }) indent (i + 1)
    else some lines

/-- parseTsvToLines (utils.ts lines 9-33): split, trim, filter, destructure
each kept line into a record, then bootstrap indents with the decoder. -/
def parseTsvToLines (contents : String) : Option (List ParsedLine) :=
  let formattedContent := (keptRawLines contents).map mkRecord
  calcPIndentGo formattedContent.length formattedContent 0 1

/-- The closed label enumeration of types.ts, as serialized tokens. -/
def validLabelTokens : List String := ["c", "a", "b", "s", "d", "e", "x"]

/-- A transition label is non-structural when it is one of the five
caller-set labels that the spec says the Encoder must not overwrite. -/
def nonStructural (l : Transition) : Prop :=
  l = Transition.c ∨ l = Transition.a ∨ l = Transition.b ∨
    l = Transition.e ∨ l = Transition.x

instance (l : Transition) : Decidable (nonStructural l) := by
  unfold nonStructural; infer_instance

/-- A well-formed indent sequence in the sense of the spec: the first indent
is 0 and every adjacent increase is by at most one level. -/
def wellFormedIndents (lines : List Line) : Prop :=
  (lines.map Line.indent).headD 0 = 0 ∧
  ∀ j, j < lines.length - 1 →
    (lines.map Line.indent).getD (j + 1) 0 ≤ (lines.map Line.indent).getD j 0 + 1

instance (lines : List Line) : Decidable (wellFormedIndents lines) := by
  unfold wellFormedIndents; infer_instance

/-- The reference recurrence of the spec for one decoded line, read off the
decoded output: the indent of a line is determined by the previous line's
label, pointer and indent — INDENTED_BLOCK gives the previous indent plus
one, a positive pointer p gives the indent of line p - 1 plus one, ROOT
gives 0, and otherwise the indent is carried over. -/
def decoderRecurrence (out : List Line) (pk pk1 : Line) : Prop :=
  (pk1.label = Transition.d → pk.indent = pk1.indent + 1) ∧
  (pk1.label ≠ Transition.d → 0 < pk1.pointer →
    ∃ tgt, out[(pk1.pointer - 1).toNat]? = some tgt ∧ pk.indent = tgt.indent + 1) ∧
  (pk1.label ≠ Transition.d → pk1.pointer = -1 → pk.indent = 0) ∧
  (pk1.label ≠ Transition.d → ¬ 0 < pk1.pointer → pk1.pointer ≠ -1 →
    pk.indent = pk1.indent)

/-- Input for claim C1: indents [0, 1, 0], with a stale INDENTED_BLOCK label
on the middle line. -/
def c1input : List Line :=
  [⟨"A", 0, Transition.s, 0⟩, ⟨"B", 0, Transition.d, 1⟩, ⟨"C", 0, Transition.s, 0⟩]

/-- Input for claim C2's counterexample: a single line whose stale indent is 1. -/
def c2cexInput : List Line := [⟨"A", 0, Transition.s, 1⟩]

/-- Scenario C input from the spec: records parsed from
"A\t-1\ts\nB\t0\td\nC\t-1\ts". -/
def scenarioC : List Line :=
  [⟨"A", -1, Transition.s, 0⟩, ⟨"B", 0, Transition.d, 0⟩, ⟨"C", -1, Transition.s, 0⟩]

/-- The decoded Scenario C sequence, with indents [0, 0, 1]. -/
def scenarioCOut : List Line :=
  [⟨"A", -1, Transition.s, 0⟩, ⟨"B", 0, Transition.d, 0⟩, ⟨"C", -1, Transition.s, 1⟩]

/-- Input for claim C3's counterexample: a CONTINUOUS line followed by a more
indented line. -/
def c3cexInput : List Line :=
  [⟨"A", 0, Transition.c, 0⟩, ⟨"B", 0, Transition.s, 1⟩]

/-- Input for claim C3's witness: a CONTINUOUS line followed by an equally
indented line. -/
def c3wInput : List Line :=
  [⟨"A", 5, Transition.c, 0⟩, ⟨"B", 0, Transition.s, 0⟩]

/-- Input for claim C6's counterexample: indents [0, 1, 1, 0] with a
non-structural label on line 2 and a stale pointer on the last line. -/
def c6cexInput : List Line :=
  [⟨"A", 0, Transition.s, 0⟩, ⟨"B", 0, Transition.s, 1⟩,
   ⟨"C", 0, Transition.c, 1⟩, ⟨"D", 7, Transition.s, 0⟩]

/-- Input for claim C10's witness: indents [0, 1, 2, 1], which makes the
Encoder assign the positive pointer 1 at index 2. -/
def c10wInput : List Line :=
  [⟨"A", 0, Transition.s, 0⟩, ⟨"B", 0, Transition.s, 1⟩,
   ⟨"C", 0, Transition.s, 2⟩, ⟨"D", 0, Transition.s, 1⟩]

/-- The line the Encoder produces at index 2 of c10wInput: pointer 1. -/
def c10wLine : Line := ⟨"C", 1, Transition.s, 2⟩

/-- A single plain line used by boundary witnesses. -/
def oneLine : Line := ⟨"A", 0, Transition.s, 0⟩

theorem updatePointersGo_length (rest : List Line) :
    ∀ st i cur, (updatePointersGo st i cur rest).length = rest.length + 1 := by
  induction rest with
  | nil => intro st i cur; simp [updatePointersGo]
  | cons n r ih =>
    intro st i cur
    simp only [updatePointersGo]
    split
    · simp [ih]
    · split
      · simp [ih]
      · simp [ih]

theorem updatePointersFromIndent_length (lines : List Line) :
    (updatePointersFromIndent lines).length = lines.length := by
  cases lines with
  | nil => rfl
  | cons l r => simp [updatePointersFromIndent, updatePointersGo_length]

theorem updatePointersGo_head_indent (rest : List Line) (st : List Nat) (i : Nat)
    (cur : Line) : ((updatePointersGo st i cur rest).head?).map Line.indent =
      some cur.indent := by
  cases rest with
  | nil => simp [updatePointersGo]
  | cons n r =>
    simp only [updatePointersGo]
    split
    · simp
    · split
      · simp
      · simp

theorem updatePointersGo_idem :
    ∀ (rest : List Line) (st : List Nat) (i : Nat) (cur h1 : Line) (t : List Line),
      updatePointersGo st i cur rest = h1 :: t → updatePointersGo st i h1 t = h1 :: t := by
  intro rest
  induction rest with
  | nil =>
    intro st i cur h1 t heq
    simp only [updatePointersGo] at heq
    injection heq with e1 e2
    subst e1; subst e2
    simp [updatePointersGo]
  | cons n r ih =>
    intro st i cur h1 t heq
    simp only [updatePointersGo] at heq
    by_cases hEq : cur.indent = n.indent
    · rw [if_pos hEq] at heq
      injection heq with e1 e2
      subst e1; subst e2
      rcases ht : updatePointersGo st (i + 1) n r with _ | ⟨h2, t2⟩
      · have := updatePointersGo_length r st (i + 1) n
        rw [ht] at this; simp at this
      · have hrec := ih st (i + 1) n h2 t2 ht
        have hhead := updatePointersGo_head_indent r st (i + 1) n
        rw [ht] at hhead
        simp only [List.head?_cons, Option.map_some] at hhead
        injection hhead with hhead
        simp only [updatePointersGo]
        rw [if_pos (by simpa [hhead] using hEq)]
        rw [hrec]
        by_cases hcd : cur.label = Transition.d <;> simp [hcd]
    · rw [if_neg hEq] at heq
      by_cases hLt : cur.indent < n.indent
      · rw [if_pos hLt] at heq
        injection heq with e1 e2
        subst e1; subst e2
        rcases ht : updatePointersGo (i :: st) (i + 1) n r with _ | ⟨h2, t2⟩
        · have := updatePointersGo_length r (i :: st) (i + 1) n
          rw [ht] at this; simp at this
        · have hrec := ih (i :: st) (i + 1) n h2 t2 ht
          have hhead := updatePointersGo_head_indent r (i :: st) (i + 1) n
          rw [ht] at hhead
          simp only [List.head?_cons, Option.map_some] at hhead
          injection hhead with hhead
          simp only [updatePointersGo]
          rw [if_neg (by simpa [hhead] using hEq), if_pos (by simpa [hhead] using hLt)]
          rw [hrec]
      · have hGt : n.indent < cur.indent := by omega
        rw [if_neg hLt] at heq
        injection heq with e1 e2
        subst e1; subst e2
        rcases ht : updatePointersGo (st.drop (cur.indent - n.indent).toNat) (i + 1) n r
          with _ | ⟨h2, t2⟩
        · have := updatePointersGo_length r (st.drop (cur.indent - n.indent).toNat) (i + 1) n
          rw [ht] at this; simp at this
        · have hrec := ih (st.drop (cur.indent - n.indent).toNat) (i + 1) n h2 t2 ht
          have hhead := updatePointersGo_head_indent r
            (st.drop (cur.indent - n.indent).toNat) (i + 1) n
          rw [ht] at hhead
          simp only [List.head?_cons, Option.map_some] at hhead
          injection hhead with hhead
          simp only [updatePointersGo]
          rw [if_neg (by simpa [hhead] using hEq), if_neg (by simpa [hhead] using hLt)]
          simp only [hhead]
          rw [hrec]

theorem updatePointersFromIndent_idem (lines : List Line) :
    updatePointersFromIndent (updatePointersFromIndent lines) =
      updatePointersFromIndent lines := by
  cases lines with
  | nil => rfl
  | cons l r =>
    show updatePointersFromIndent (updatePointersGo [] 1 l r) = updatePointersGo [] 1 l r
    rcases ht : updatePointersGo [] 1 l r with _ | ⟨h1, t⟩
    · have := updatePointersGo_length r [] 1 l
      rw [ht] at this; simp at this
    · show updatePointersGo [] 1 h1 t = h1 :: t
      exact updatePointersGo_idem r [] 1 l h1 t ht

theorem updatePointersGo_label_pres :
    ∀ (rest : List Line) (st : List Nat) (i : Nat) (cur : Line) (j : Nat) (pj : Line),
      (cur :: rest)[j]? = some pj →
      pj.label ≠ Transition.d →
      (∀ pj1, (cur :: rest)[j + 1]? = some pj1 → ¬ pj.indent < pj1.indent) →
      ((updatePointersGo st i cur rest)[j]?).map Line.label = some pj.label := by
  intro rest
  induction rest with
  | nil =>
    intro st i cur j pj hj hne hnext
    cases j with
    | zero =>
      simp only [List.getElem?_cons_zero, Option.some.injEq] at hj
      subst hj
      simp [updatePointersGo]
    | succ j => simp at hj
  | cons n r ih =>
    intro st i cur j pj hj hne hnext
    cases j with
    | zero =>
      simp only [List.getElem?_cons_zero, Option.some.injEq] at hj
      subst hj
      simp only [updatePointersGo]
      by_cases hEq : cur.indent = n.indent
      · rw [if_pos hEq]
        simp [if_neg hne]
      · rw [if_neg hEq]
        by_cases hLt : cur.indent < n.indent
        · exact absurd hLt (hnext n (by simp))
        · rw [if_neg hLt]
          simp
    | succ j =>
      simp only [List.getElem?_cons_succ] at hj
      have hnext' : ∀ pj1, (n :: r)[j + 1]? = some pj1 → ¬ pj.indent < pj1.indent := by
        intro pj1 h
        exact hnext pj1 (by simpa using h)
      simp only [updatePointersGo]
      split
      · simpa using ih st (i + 1) n j pj hj hne hnext'
      · split
        · simpa using ih (i :: st) (i + 1) n j pj hj hne hnext'
        · simpa using ih (st.drop ((Line.indent cur) - n.indent).toNat) (i + 1) n j pj
            hj hne hnext'

theorem updatePointersGo_ptr_lt :
    ∀ (rest : List Line) (st : List Nat) (i : Nat) (cur : Line) (j : Nat) (pj : Line),
      (∀ v ∈ st, v < i) →
      j < rest.length →
      (updatePointersGo st i cur rest)[j]? = some pj →
      0 < pj.pointer →
      pj.pointer < (i : Int) + j := by
  intro rest
  induction rest with
  | nil => intro st i cur j pj hst hj; simp at hj
  | cons n r ih =>
    intro st i cur j pj hst hj hget hpos
    cases j with
    | zero =>
      simp only [updatePointersGo] at hget
      by_cases hEq : cur.indent = n.indent
      · rw [if_pos hEq] at hget
        simp only [List.getElem?_cons_zero, Option.some.injEq] at hget
        subst hget
        simp at hpos
      · rw [if_neg hEq] at hget
        by_cases hLt : cur.indent < n.indent
        · rw [if_pos hLt] at hget
          simp only [List.getElem?_cons_zero, Option.some.injEq] at hget
          subst hget
          simp at hpos
        · rw [if_neg hLt] at hget
          simp only [List.getElem?_cons_zero, Option.some.injEq] at hget
          subst hget
          simp only at hpos ⊢
          rcases hdrop : (st.drop (cur.indent - n.indent).toNat) with _ | ⟨p, rest'⟩
          · simp only [hdrop] at hpos; omega
          · simp only [hdrop] at hpos ⊢
            have hp : p ∈ st := List.drop_subset _ st (by rw [hdrop]; exact List.mem_cons_self p rest')
            have := hst p hp
            omega
    | succ j =>
      simp only [updatePointersGo] at hget
      simp only [List.length_cons] at hj
      by_cases hEq : cur.indent = n.indent
      · rw [if_pos hEq] at hget
        simp only [List.getElem?_cons_succ] at hget
        have := ih st (i + 1) n j pj (fun v hv => by have := hst v hv; omega)
          (by omega) hget hpos
        push_cast at this ⊢
        omega
      · rw [if_neg hEq] at hget
        by_cases hLt : cur.indent < n.indent
        · rw [if_pos hLt] at hget
          simp only [List.getElem?_cons_succ] at hget
          have := ih (i :: st) (i + 1) n j pj
            (by intro v hv; rcases List.mem_cons.mp hv with h | h
                · omega
                · have := hst v h; omega)
            (by omega) hget hpos
          push_cast at this ⊢
          omega
        · rw [if_neg hLt] at hget
          simp only [List.getElem?_cons_succ] at hget
          have := ih (st.drop (cur.indent - n.indent).toNat) (i + 1) n j pj
            (by intro v hv
                have := hst v (List.drop_subset _ st hv)
                omega)
            (by omega) hget hpos
          push_cast at this ⊢
          omega

theorem calcIndentGo_inv :
    ∀ (fuel : Nat) (lines : List Line) (indent : Int) (i : Nat) (out : List Line),
      lines.length ≤ i + fuel →
      1 ≤ i →
      calcIndentGo fuel lines indent i = some out →
      (∀ (j : Nat) (pj : Line), lines[j]? = some pj → pj.pointer ≤ (j : Int)) →
      (∀ pl, lines[i - 1]? = some pl → pl.indent = indent) →
      out.length = lines.length ∧
      (∀ j, j < i → out[j]? = lines[j]?) ∧
      (∀ (k : Nat) (pk pk1 : Line), i ≤ k → out[k]? = some pk →
        out[k - 1]? = some pk1 → decoderRecurrence out pk pk1) := by
  intro fuel
  induction fuel with
  | zero =>
    intro lines indent i out hfuel h1 hd hptr hind
    simp only [calcIndentGo] at hd
    injection hd with hd
    subst hd
    refine ⟨rfl, fun j _ => rfl, ?_⟩
    intro k pk pk1 hk hpk hpk1
    rw [List.getElem?_eq_none (by omega)] at hpk
    cases hpk
  | succ fuel ih =>
    intro lines indent i out hfuel h1 hd hptr hind
    simp only [calcIndentGo] at hd
    by_cases hi : i < lines.length
    · rw [if_pos hi] at hd
      have him1 : i - 1 < lines.length := by omega
      have higet : lines[i]? = some (lines.getD i default) := by
        simp [List.getD_eq_getElem?_getD, List.getElem?_eq_getElem hi]
      have hpget : lines[i - 1]? = some (lines.getD (i - 1) default) := by
        simp [List.getD_eq_getElem?_getD, List.getElem?_eq_getElem him1]
      have hsetptr : ∀ (ni : Int) (j : Nat) (pj : Line),
          (lines.set i { lines.getD i default with indent := ni })[j]? = some pj →
          pj.pointer ≤ (j : Int) := by
        intro ni j pj hget
        rw [List.getElem?_set] at hget
        by_cases hij : i = j
        · rw [if_pos hij, if_pos (hij ▸ hi)] at hget
          injection hget with hget
          subst hget
          subst hij
          simpa using hptr i _ higet
        · rw [if_neg hij] at hget
          exact hptr j pj hget
      have hsetind : ∀ (ni : Int) (pl : Line),
          (lines.set i { lines.getD i default with indent := ni })[i + 1 - 1]? = some pl →
          pl.indent = ni := by
        intro ni pl hget
        simp only [Nat.add_sub_cancel] at hget
        rw [List.getElem?_set_self hi] at hget
        injection hget with hget
        subst hget
        rfl
      have hsetlen : ∀ (ni : Int),
          (lines.set i { lines.getD i default with indent := ni }).length ≤ i + 1 + fuel := by
        intro ni
        simp only [List.length_set]
        omega
      have hiframe : ∀ (ni : Int), (∀ j, j < i + 1 →
            out[j]? = (lines.set i { lines.getD i default with indent := ni })[j]?) →
          (∀ j, j < i → out[j]? = lines[j]?) ∧
          out[i]? = some { lines.getD i default with indent := ni } ∧
          out[i - 1]? = lines[i - 1]? := by
        intro ni hfr
        refine ⟨?_, ?_, ?_⟩
        · intro j hj
          rw [hfr j (by omega), List.getElem?_set_ne (by omega)]
        · rw [hfr i (by omega), List.getElem?_set_self hi]
        · rw [hfr (i - 1) (by omega), List.getElem?_set_ne (by omega)]
      by_cases hlab : (lines.getD (i - 1) default).label = Transition.d
      · rw [if_pos hlab] at hd
        obtain ⟨hlen, hfr, hrec⟩ := ih _ (indent + 1) (i + 1) out (hsetlen _) (by omega) hd
          (hsetptr _) (hsetind _)
        obtain ⟨hfr', houti, houtim1⟩ := hiframe (indent + 1) hfr
        refine ⟨by simpa using hlen, hfr', ?_⟩
        intro k pk pk1 hk hpk hpk1
        rcases Nat.lt_or_ge k (i + 1) with hki | hki
        · have hki' : i = k := by omega
          subst hki'
          rw [houti] at hpk
          injection hpk with hpk
          rw [houtim1, hpget] at hpk1
          injection hpk1 with hpk1
          subst hpk
          subst hpk1
          refine ⟨fun _ => ?_, fun hnd _ => absurd hlab hnd,
            fun hnd _ => absurd hlab hnd, fun hnd _ _ => absurd hlab hnd⟩
          have hpi := hind _ hpget
          simp only [List.getD_eq_getElem?_getD] at hpi
          simp [hpi]
        · exact hrec k pk pk1 hki hpk hpk1
      · rw [if_neg hlab] at hd
        by_cases hpos : 0 < (lines.getD (i - 1) default).pointer
        · rw [if_pos hpos] at hd
          rcases htgt : lines[((lines.getD (i - 1) default).pointer - 1).toNat]?
            with _ | tgt
          · rw [htgt] at hd; cases hd
          · rw [htgt] at hd
            obtain ⟨hlen, hfr, hrec⟩ := ih _ (tgt.indent + 1) (i + 1) out (hsetlen _)
              (by omega) hd (hsetptr _) (hsetind _)
            obtain ⟨hfr', houti, houtim1⟩ := hiframe (tgt.indent + 1) hfr
            refine ⟨by simpa using hlen, hfr', ?_⟩
            intro k pk pk1 hk hpk hpk1
            rcases Nat.lt_or_ge k (i + 1) with hki | hki
            · have hki' : i = k := by omega
              subst hki'
              rw [houti] at hpk
              injection hpk with hpk
              rw [houtim1, hpget] at hpk1
              injection hpk1 with hpk1
              subst hpk
              subst hpk1
              have hple := hptr (i - 1) _ hpget
              have hlt : ((lines.getD (i - 1) default).pointer - 1).toNat < i := by
                omega
              refine ⟨fun hdl => absurd hdl hlab, fun _ _ => ?_,
                fun _ hm1 => by omega, fun _ hnp _ => absurd hpos hnp⟩
              refine ⟨tgt, ?_, by simp⟩
              rw [hfr' _ hlt]
              exact htgt
            · exact hrec k pk pk1 hki hpk hpk1
        · rw [if_neg hpos] at hd
          by_cases hm1 : (lines.getD (i - 1) default).pointer = -1
          · rw [if_pos hm1] at hd
            obtain ⟨hlen, hfr, hrec⟩ := ih _ 0 (i + 1) out (hsetlen _) (by omega) hd
              (hsetptr _) (hsetind _)
            obtain ⟨hfr', houti, houtim1⟩ := hiframe 0 hfr
            refine ⟨by simpa using hlen, hfr', ?_⟩
            intro k pk pk1 hk hpk hpk1
            rcases Nat.lt_or_ge k (i + 1) with hki | hki
            · have hki' : i = k := by omega
              subst hki'
              rw [houti] at hpk
              injection hpk with hpk
              rw [houtim1, hpget] at hpk1
              injection hpk1 with hpk1
              subst hpk
              subst hpk1
              exact ⟨fun hdl => absurd hdl hlab, fun _ hp => absurd hp hpos,
                fun _ _ => rfl, fun _ _ hne => absurd hm1 hne⟩
            · exact hrec k pk pk1 hki hpk hpk1
          · rw [if_neg hm1] at hd
            obtain ⟨hlen, hfr, hrec⟩ := ih _ indent (i + 1) out (hsetlen _) (by omega) hd
              (hsetptr _) (hsetind _)
            obtain ⟨hfr', houti, houtim1⟩ := hiframe indent hfr
            refine ⟨by simpa using hlen, hfr', ?_⟩
            intro k pk pk1 hk hpk hpk1
            rcases Nat.lt_or_ge k (i + 1) with hki | hki
            · have hki' : i = k := by omega
              subst hki'
              rw [houti] at hpk
              injection hpk with hpk
              rw [houtim1, hpget] at hpk1
              injection hpk1 with hpk1
              subst hpk
              subst hpk1
              refine ⟨fun hdl => absurd hdl hlab, fun _ hp => absurd hp hpos,
                fun _ hm => absurd hm hm1, fun _ _ _ => ?_⟩
              have hpi := hind _ hpget
              simp only [List.getD_eq_getElem?_getD] at hpi
              simp [hpi]
            · exact hrec k pk pk1 hki hpk hpk1
    · rw [if_neg hi] at hd
      injection hd with hd
      subst hd
      refine ⟨rfl, fun j _ => rfl, ?_⟩
      intro k pk pk1 hk hpk hpk1
      rw [List.getElem?_eq_none (by omega)] at hpk
      cases hpk

theorem calcPIndentGo_fields :
    ∀ (fuel : Nat) (lines : List ParsedLine) (indent : Int) (i : Nat)
      (out : List ParsedLine),
      calcPIndentGo fuel lines indent i = some out →
      ∀ (j : Nat), (out[j]?).map (fun r => (r.text, r.pointer, r.label)) =
        (lines[j]?).map (fun r => (r.text, r.pointer, r.label)) := by
  intro fuel
  induction fuel with
  | zero =>
    intro lines indent i out hd j
    simp only [calcPIndentGo] at hd
    injection hd with hd
    subst hd
    rfl
  | succ fuel ih =>
    intro lines indent i out hd j
    simp only [calcPIndentGo] at hd
    by_cases hi : i < lines.length
    · rw [if_pos hi] at hd
      have hstep : ∀ (ni : Int),
          ((lines.set i { lines.getD i default with indent := ni })[j]?).map
            (fun r => (r.text, r.pointer, r.label)) =
          (lines[j]?).map (fun r => (r.text, r.pointer, r.label)) := by
        intro ni
        rw [List.getElem?_set]
        by_cases hij : i = j
        · rw [if_pos hij, if_pos (hij ▸ hi)]
          subst hij
          simp [List.getD_eq_getElem?_getD, List.getElem?_eq_getElem hi]
        · rw [if_neg hij]
      split at hd
      · exact (ih _ _ _ _ hd j).trans (hstep _)
      · split at hd
        · split at hd
          · split at hd
            · cases hd
            · exact (ih _ _ _ _ hd j).trans (hstep _)
          · split at hd
            · exact (ih _ _ _ _ hd j).trans (hstep _)
            · exact (ih _ _ _ _ hd j).trans (hstep _)
        · exact (ih _ _ _ _ hd j).trans (hstep _)
    · rw [if_neg hi] at hd
      injection hd with hd
      subst hd
      rfl

theorem calcPIndentGo_fields_map (fuel : Nat) (lines : List ParsedLine)
    (indent : Int) (i : Nat) (out : List ParsedLine)
    (hd : calcPIndentGo fuel lines indent i = some out) :
    out.map (fun r => (r.text, r.pointer, r.label)) =
      lines.map (fun r => (r.text, r.pointer, r.label)) := by
  apply List.ext_getElem?
  intro n
  rw [List.getElem?_map, List.getElem?_map]
  exact calcPIndentGo_fields fuel lines indent i out hd n

theorem decChildGo_length :
    ∀ (fuel : Nat) (lines : List Line) (t : Int) (i : Nat),
      (decChildGo fuel lines t i).length = lines.length := by
  intro fuel
  induction fuel with
  | zero => intro lines t i; rfl
  | succ fuel ih =>
    intro lines t i
    simp only [decChildGo]
    split
    · split
      · rw [ih]; simp
      · rfl
    · rfl

theorem decrementChildIndent_length (lines : List Line) (target : Nat)
    (out : List Line) (h : decrementChildIndent lines target = some out) :
    out.length = lines.length := by
  simp only [decrementChildIndent] at h
  split at h
  · cases h
  · split at h
    · injection h with h; subst h; rfl
    · injection h with h
      subst h
      rw [updatePointersFromIndent_length, decChildGo_length]

/-- Claim C1: the claim states that for every well-formed sequence the Decoder
applied to the Encoder's output reproduces the Encoder's indents. The code
violates it: on indents [0, 1, 0] with a stale INDENTED_BLOCK label on line 1
(a well-formed sequence), the Encoder's dedent branch leaves the stale label
in place, and the Decoder, which gives label INDENTED_BLOCK precedence over
the pointer, decodes indents [0, 1, 2] instead of [0, 1, 0]. -/
theorem c1_roundtrip_fails :
    wellFormedIndents c1input ∧
    (updatePointersFromIndent c1input).map Line.indent = [0, 1, 0] ∧
    (calculateIndentFromPointers (updatePointersFromIndent c1input)).map
      (fun out => out.map Line.indent) = some [0, 1, 2] ∧
    ([0, 1, 2] : List Int) ≠ [0, 1, 0] := by decide

/-- Claim C2, counterexample: the Decoder does not make the indent at
position 0 equal to 0 for every input; it never touches position 0, so a
single-line input with stale indent 1 decodes to indent 1. -/
theorem c2_first_indent_cex :
    calculateIndentFromPointers c2cexInput = some c2cexInput ∧
    (c2cexInput.map Line.indent).headD 0 = 1 ∧ (1 : Int) ≠ 0 := by decide

/-- Claim C2 (amended): on inputs with no forward or self pointer references
and whose first indent is 0 (as for freshly parsed records), the Decoder
leaves position 0 unchanged and the output indent at every position k is
determined from the previous output line by the reference recurrence:
INDENTED_BLOCK gives previous indent plus one, a positive pointer p gives
the indent of line p - 1 plus one, ROOT gives 0, otherwise the indent is
carried over. -/
theorem c2_decoder_recurrence (lines out : List Line)
    (hptr : ∀ (j : Nat) (pj : Line), lines[j]? = some pj → pj.pointer ≤ (j : Int))
    (h0 : ∀ l0, lines[0]? = some l0 → l0.indent = 0)
    (hdec : calculateIndentFromPointers lines = some out) :
    out[0]? = lines[0]? ∧
    (∀ (k : Nat) (pk pk1 : Line), 1 ≤ k → out[k]? = some pk →
      out[k - 1]? = some pk1 → decoderRecurrence out pk pk1) := by
  obtain ⟨hlen, hfr, hrec⟩ := calcIndentGo_inv lines.length lines 0 1 out
    (by omega) (by omega) hdec hptr (by simpa using h0)
  exact ⟨hfr 0 (by omega), hrec⟩

/-- Claim C2, witness: Scenario C of the spec decodes to indents [0, 0, 1]
and the amended theorem applies to it. -/
theorem c2_decoder_recurrence_witness :
    calculateIndentFromPointers scenarioC = some scenarioCOut ∧
    scenarioCOut.map Line.indent = [0, 0, 1] ∧
    scenarioCOut[0]? = scenarioC[0]? := by
  refine ⟨by decide, by decide, ?_⟩
  refine (c2_decoder_recurrence scenarioC scenarioCOut ?_ ?_ (by decide)).1
  · intro j pj h
    rcases j with _ | _ | _ | j <;> simp [scenarioC] at h <;> simp [← h]
  · intro l0 h
    simp [scenarioC] at h
    simp [← h]

/-- Claim C3, counterexample: the Encoder does overwrite a non-structural
label: when the next line is strictly more indented, the label is recomputed
to INDENTED_BLOCK, here turning CONTINUOUS into INDENTED_BLOCK at index 0. -/
theorem c3_label_overwrite_cex :
    c3cexInput.map Line.label = [Transition.c, Transition.s] ∧
    nonStructural Transition.c ∧
    (updatePointersFromIndent c3cexInput).map Line.label =
      [Transition.d, Transition.s] ∧
    Transition.d ≠ Transition.c := by decide

/-- Claim C3 (amended): the Encoder preserves the five non-structural labels
CONTINUOUS, ADDRESS, BLOCK, DELETE, IGNORE at every position whose next line
is not strictly more indented (including the last position); only at a
position whose next line is deeper is the label recomputed (to
INDENTED_BLOCK). -/
theorem c3_label_preservation (lines : List Line) (j : Nat) (pj : Line)
    (hj : lines[j]? = some pj)
    (hns : nonStructural pj.label)
    (hnext : ∀ pj1, lines[j + 1]? = some pj1 → ¬ pj.indent < pj1.indent) :
    ((updatePointersFromIndent lines)[j]?).map Line.label = some pj.label := by
  cases lines with
  | nil => simp at hj
  | cons l r =>
    have hne : pj.label ≠ Transition.d := by
      rcases hns with h | h | h | h | h <;> simp [h]
    exact updatePointersGo_label_pres r [] 1 l j pj hj hne hnext

/-- Claim C3, witness: a CONTINUOUS label followed by an equally indented
line survives the Encoder. -/
theorem c3_label_preservation_witness :
    ((updatePointersFromIndent c3wInput)[0]?).map Line.label =
      some Transition.c := by
  refine c3_label_preservation c3wInput 0 ⟨"A", 5, Transition.c, 0⟩
    (by decide) (by decide) ?_
  intro pj1 h
  simp [c3wInput] at h
  simp [← h]

/-- Claim C4: the claim states that incrementIndent at target 0 is an
error-free no-op, but the first-revision code reads lines[-1].indent before
the target-is-zero guard and throws; the two decrementIndent boundary cases
(last index, indent 0) do hold as no-ops. -/
theorem c4_boundary_behavior :
    (∀ lines : List Line, incrementIndent lines 0 = none) ∧
    (∀ lines : List Line, lines ≠ [] →
      decrementIndent lines (lines.length - 1) = some lines) ∧
    (∀ (lines : List Line) (t : Nat) (l : Line), lines[t]? = some l →
      l.indent = 0 → decrementIndent lines t = some lines) := by
  refine ⟨?_, ?_, ?_⟩
  · intro lines
    simp [incrementIndent, jsGetLine]
  · intro lines hne
    have hlen : 0 < lines.length := List.length_pos.mpr hne
    have hfirst : (((lines.length - 1 : Nat) : Int) == (lines.length : Int) - 1) =
        true := by
      rw [beq_iff_eq]; omega
    have hg : jsGetLine lines ((lines.length - 1 : Nat) : Int) =
        some (lines.getD (lines.length - 1) default) := by
      simp only [jsGetLine]
      rw [if_neg (by omega)]
      have h2 : ((lines.length - 1 : Nat) : Int).toNat = lines.length - 1 := by omega
      rw [h2]
      simp [List.getD_eq_getElem?_getD,
        List.getElem?_eq_getElem (show lines.length - 1 < lines.length by omega)]
    simp [decrementIndent, hg, hfirst]
  · intro lines t l hl h0
    have hg : jsGetLine lines (t : Int) = some l := by
      simp only [jsGetLine]
      rw [if_neg (by omega)]
      simpa using hl
    simp [decrementIndent, hg, h0]

/-- Claim C4, witness: on a one-line sequence, incrementIndent at 0 throws
(none) and decrementIndent at the last index is a no-op. -/
theorem c4_boundary_behavior_witness :
    incrementIndent [oneLine] 0 = none ∧
    decrementIndent [oneLine] 0 = some [oneLine] := by
  constructor
  · exact c4_boundary_behavior.1 [oneLine]
  · exact c4_boundary_behavior.2.1 [oneLine] (by decide)

/-- Claim C5: the Encoder is idempotent: a second run reproduces the first
run's pointer and label at every position (labels include the structural
SAME_LEVEL and INDENTED_BLOCK ones). -/
theorem c5_encoder_idempotent (lines : List Line) (j : Nat) :
    ((updatePointersFromIndent (updatePointersFromIndent lines))[j]?).map
      (fun l => (l.pointer, l.label)) =
    ((updatePointersFromIndent lines)[j]?).map (fun l => (l.pointer, l.label)) := by
  rw [updatePointersFromIndent_idem]

/-- Claim C6, counterexample: on indents [0, 1, 1, 0] the Encoder leaves the
label at index 2 unchanged (here CONTINUOUS, not the claimed SAME_LEVEL) and
leaves the last line's pointer unchanged (here 7, not the claimed UNSET). -/
theorem c6_scenarioA_cex :
    c6cexInput.map Line.indent = [0, 1, 1, 0] ∧
    (updatePointersFromIndent c6cexInput).map (fun l => (l.pointer, l.label)) =
      [(0, Transition.d), (0, Transition.s), (-1, Transition.c),
       (7, Transition.s)] ∧
    Transition.c ≠ Transition.s ∧ (7 : Int) ≠ 0 := by decide

/-- Claim C6 (amended): a 4-line sequence with indents [0, 1, 1, 0] encodes
to pointers [UNSET, UNSET, ROOT, unchanged] and labels [INDENTED_BLOCK,
SAME_LEVEL-or-prior-non-structural, unchanged, unchanged]; the label at
index 2 and the pointer and label of the last line are left as they were. -/
theorem c6_scenarioA (l0 l1 l2 l3 : Line)
    (h0 : l0.indent = 0) (h1 : l1.indent = 1) (h2 : l2.indent = 1)
    (h3 : l3.indent = 0) :
    updatePointersFromIndent [l0, l1, l2, l3] =
      [{ l0 with pointer := 0, label := Transition.d },
       { l1 with
           pointer := 0
           label := if l1.label = Transition.d then Transition.s else l1.label },
       { l2 with pointer := -1 }, l3] := by
  simp [updatePointersFromIndent, updatePointersGo, h0, h1, h2, h3]

/-- Claim C6, witness: the amended encoding at a concrete 4-line input. -/
theorem c6_scenarioA_witness :
    updatePointersFromIndent
      [⟨"A", 0, Transition.s, 0⟩, ⟨"B", 0, Transition.s, 1⟩,
       ⟨"C", 0, Transition.s, 1⟩, ⟨"D", 0, Transition.s, 0⟩] =
      [⟨"A", 0, Transition.d, 0⟩, ⟨"B", 0, Transition.s, 1⟩,
       ⟨"C", -1, Transition.s, 1⟩, ⟨"D", 0, Transition.s, 0⟩] := by
  have h := c6_scenarioA ⟨"A", 0, Transition.s, 0⟩ ⟨"B", 0, Transition.s, 1⟩
    ⟨"C", 0, Transition.s, 1⟩ ⟨"D", 0, Transition.s, 0⟩ rfl rfl rfl rfl
  simpa using h

/-- Claim C8: the claim states that backspace at the last index returns
normally, but the first-revision code reads lines[target + 1].indent before
the bounds guard (the guard is computed as a boolean constant, losing short
circuit evaluation) and throws on every non-empty input. -/
theorem c8_backspace_last_throws (lines : List Line) (hne : lines ≠ []) :
    backspace lines (lines.length - 1) = none := by
  have hlen : 0 < lines.length := List.length_pos.mpr hne
  simp only [backspace]
  rcases hdc : decrementChildIndent lines (lines.length - 1) with _ | lines1
  · rfl
  · have h1 : lines1.length = lines.length := decrementChildIndent_length _ _ _ hdc
    have hg1 : jsGetLine lines1 ((lines.length - 1 : Nat) : Int) =
        some (lines1.getD (lines.length - 1) default) := by
      simp only [jsGetLine]
      rw [if_neg (by omega)]
      have h2 : ((lines.length - 1 : Nat) : Int).toNat = lines.length - 1 := by omega
      rw [h2]
      simp [List.getD_eq_getElem?_getD,
        List.getElem?_eq_getElem (show lines.length - 1 < lines1.length by omega)]
    have hg2 : jsGetLine
        (lines1.set (lines.length - 1)
          { lines1.getD (lines.length - 1) default with label := Transition.CONTINUOUS })
        (((lines.length - 1 : Nat) : Int) + 1) = none := by
      simp only [jsGetLine]
      rw [if_neg (by omega)]
      have h2 : (((lines.length - 1 : Nat) : Int) + 1).toNat = lines.length := by omega
      rw [h2]
      apply List.getElem?_eq_none
      simp [h1]
    simp only [List.getD_eq_getElem?_getD] at hg2
    simp [hg1, hg2]

/-- Claim C8, witness: backspace at the last index of a one-line sequence
throws (none). -/
theorem c8_backspace_last_throws_witness : backspace [oneLine] 0 = none :=
  c8_backspace_last_throws [oneLine] (by decide)

/-- Claim C9, counterexample: parsing carries an unknown label token through
unchanged: the file "A\t5\tz" parses successfully to a record whose label is
the token z, which is outside the closed enumeration and was not coerced to
IGNORE. -/
theorem c9_unknown_label_cex :
    parseTsvToLines "A\t5\tz" = some [⟨some "A", some 5, some "z", 0⟩] ∧
    ¬ "z" ∈ validLabelTokens ∧ (some "z" : Option String) ≠ some "x" := by decide

/-- Claim C9 (amended): the parser performs no label validation at all: every
record in a successful parse carries, verbatim, the third tab-separated
field of its source line (possibly missing), whatever token that is. -/
theorem c9_label_passthrough (s : String) (out : List ParsedLine)
    (hp : parseTsvToLines s = some out) :
    out.map (fun r => r.label) =
      (keptRawLines s).map (fun raw => (jsSplit raw '\t')[2]?) := by
  simp only [parseTsvToLines] at hp
  have h := calcPIndentGo_fields_map _ _ _ _ _ hp
  have h2 := congrArg (List.map (fun t : Option String × Option Int × Option String =>
    t.2.2)) h
  rw [List.map_map, List.map_map, List.map_map] at h2
  exact h2

/-- Claim C9, witness: the amended theorem applied to the file "A\t5\tz". -/
theorem c9_label_passthrough_witness :
    ([⟨some "A", some 5, some "z", 0⟩] : List ParsedLine).map (fun r => r.label) =
      (keptRawLines "A\t5\tz").map (fun raw => (jsSplit raw '\t')[2]?) :=
  c9_label_passthrough "A\t5\tz" [⟨some "A", some 5, some "z", 0⟩] (by decide)

/-- Claim C10: every pointer the Encoder pass assigns (positions 0 to n - 2)
that is positive refers to a strictly earlier line: its 1-indexed value p
satisfies p - 1 < k at position k, so the Decoder's no-forward-reference
precondition holds on every Encoder output. -/
theorem c10_no_forward_refs (lines : List Line) (k : Nat) (pk : Line)
    (hk : k + 1 < lines.length)
    (hget : (updatePointersFromIndent lines)[k]? = some pk)
    (hpos : 0 < pk.pointer) :
    pk.pointer - 1 < (k : Int) := by
  cases lines with
  | nil => simp at hk
  | cons l r =>
    have hr : k < r.length := by simp at hk; omega
    have h := updatePointersGo_ptr_lt r [] 1 l k pk (by simp) hr hget hpos
    omega

/-- Claim C10, witness: at indents [0, 1, 2, 1] the Encoder assigns pointer 1
at index 2, and 1 - 1 = 0 is strictly less than 2. -/
theorem c10_no_forward_refs_witness : c10wLine.pointer - 1 < (2 : Int) :=
  c10_no_forward_refs c10wInput 2 c10wLine (by decide) (by decide) (by decide)
